import Mathlib

/-!
Formal model of the `spill-ring` crate (`src/spill-ring/src/ring.rs`), the
overflow-spilling SPSC ring buffer of this repository, together with proofs
about its stated properties.

The model is a shallow embedding of the sequential semantics of the ring's
operations (the `atomics` build, as referenced by the specification: `push`
lines 183-213, `pop` lines 469-516, `pop_mut` lines 292-312, `flush` lines
428-454, `push_slice` lines 339-408, `try_push` lines 684-699).

Modelling choices:
- `usize` counters are natural numbers below `W = 2^64`; `wrapping_add` and
  `wrapping_sub` are modelled by `wadd`/`wsub` (arithmetic modulo `W`).
- The backing array of `MaybeUninit` slots is a function `Nat → Option T`;
  a slot is `some x` exactly when it logically holds an initialized value.
  Writing a slot (`(*slot.data.get()).write(item)`) sets it to `some item`;
  moving a value out (`assume_init_read`) reads the slot and resets it to
  `none`, which records that the value's ownership has left the buffer.
  A read that yields `none` corresponds to `assume_init_read` of a slot
  whose value was already moved out (undefined behavior in the source).
- The spout (`Spout`) is modelled by its trace: the list of values it has
  been sent, in order.  `send` appends one value, `send_all` appends a
  batch, and `Spout::flush` does not change the trace.
- Indexing `counter & (N - 1)` is kept literally as a bitwise and; for the
  power-of-two capacities enforced by the constructors it equals
  `counter % N`.
- `pop` (the shared-reference, seqlock-validated variant) is modelled by a
  single pass of its retry loop: in the sequential semantics modelled here
  the validation load of `evict_head` never exceeds the reconciled head, so
  the `continue` branch is unreachable and the loop body runs exactly once.
-/

namespace SpillRingModel

/-- Modulus of the `usize` counters (64-bit machine words). -/
def W : Nat := 2 ^ 64

/-- `usize::wrapping_add` on counter values below `W`. -/
def wadd (a b : Nat) : Nat := (a + b) % W

/-- `usize::wrapping_sub` on counter values below `W`. -/
def wsub (a b : Nat) : Nat := (a + (W - b % W)) % W

/-- State of a `SpillRing<T, N, S>`: the three shared counters, the two
producer/consumer local cache counters, the slot array, and the trace of
values sent to the spout.  The cache-line padding fields carry no data and
are omitted. -/
structure SpillRing (T : Type) where
  head : Nat
  cachedTail : Nat
  tail : Nat
  cachedHead : Nat
  evictHead : Nat
  buffer : Nat → Option T
  sink : List (Option T)

/-- A freshly constructed ring (`new`/`cold`/`with_sink`): all counters are
zero and every slot is logically uninitialized.  `warm()` only touches raw
bytes and resets the counters to zero, so warmed and cold construction give
the same logical state. -/
def fresh (T : Type) : SpillRing T :=
  { head := 0, cachedTail := 0, tail := 0, cachedHead := 0, evictHead := 0,
    buffer := fun _ => none, sink := [] }

variable {T : Type}

/-- `SpillRing::push` (shared-reference, atomics build), sequential
semantics.  If the ring is full after refreshing the cached head, the
oldest valid item (at `max(evict_head, head)`) is moved to the spout and
`evict_head` advances; then the new item is written at `tail & (N-1)` and
`tail` advances. -/
def push (N : Nat) (r : SpillRing T) (item : T) : SpillRing T :=
  let tail := r.tail
  let r1 :=
    if N ≤ wsub tail r.cachedHead then
      let head := r.head
      let r1 := { r with cachedHead := head }
      if N ≤ wsub tail head then
        let evict := if r1.evictHead < head then head else r1.evictHead
        let idx := evict &&& (N - 1)
        { r1 with
          sink := r1.sink ++ [r1.buffer idx],
          buffer := Function.update r1.buffer idx none,
          evictHead := wadd evict 1 }
      else r1
    else r
  { r1 with
    buffer := Function.update r1.buffer (tail &&& (N - 1)) (some item),
    tail := wadd tail 1 }

/-- `SpillRing::push_mut` (exclusive access, atomics build).  Note that it
compares `tail - head` and evicts at `head & (N-1)` without consulting
`evict_head`. -/
def pushMut (N : Nat) (r : SpillRing T) (item : T) : SpillRing T :=
  let tail := r.tail
  let head := r.head
  let r1 :=
    if N ≤ wsub tail head then
      let idx := head &&& (N - 1)
      { r with
        sink := r.sink ++ [r.buffer idx],
        buffer := Function.update r.buffer idx none,
        head := wadd head 1 }
    else r
  { r1 with
    buffer := Function.update r1.buffer (tail &&& (N - 1)) (some item),
    tail := wadd tail 1 }

/-- `SpillRing::pop_mut` (exclusive access, atomics build).  The head is
first advanced to `max(head, evict_head)`; on every exit path both `head`
and `evict_head` are stored with the same value.  The first component is
`none` when the ring is empty, and `some v` when the code returns
`Some(assume_init_read(slot))`, where `v` is the slot's logical content. -/
def popMut (N : Nat) (r : SpillRing T) : Option (Option T) × SpillRing T :=
  let head := r.head
  let head := if head < r.evictHead then r.evictHead else head
  let tail := r.tail
  if head = tail then
    (none, { r with head := head, evictHead := head })
  else
    let idx := head &&& (N - 1)
    let item := r.buffer idx
    let h := wadd head 1
    (some item,
     { r with buffer := Function.update r.buffer idx none,
              head := h, evictHead := h })

/-- Commit phase of `SpillRing::pop`: read the slot at `head & (N-1)`,
advance `head`.  (Sequentially the seqlock validation never fails, see the
module comment.) -/
def popCommit (N : Nat) (r : SpillRing T) (head : Nat) :
    Option (Option T) × SpillRing T :=
  let idx := head &&& (N - 1)
  (some (r.buffer idx),
   { r with buffer := Function.update r.buffer idx none,
            head := wadd head 1 })

/-- `SpillRing::pop` (shared-reference, atomics build), sequential
semantics.  The head is reconciled with `evict_head`; the cached tail is
refreshed when it claims emptiness or an impossible length; on the empty
path the reconciled head is published only if it actually advanced. -/
def pop (N : Nat) (r : SpillRing T) : Option (Option T) × SpillRing T :=
  let head := r.head
  let head := if head < r.evictHead then r.evictHead else head
  let avail := wsub r.cachedTail head
  if avail = 0 ∨ N < avail then
    let tail := r.tail
    let r1 := { r with cachedTail := tail }
    if head = tail then
      (none, if head = r1.head then r1 else { r1 with head := head })
    else popCommit N r1 head
  else popCommit N r head

/-- Values read from `count` consecutive slots starting at counter value
`h` (the `send_all` iterator of `flush` and `push_slice`). -/
def readRange (N : Nat) (buf : Nat → Option T) (h count : Nat) :
    List (Option T) :=
  (List.range count).map fun i => buf (wadd h i &&& (N - 1))

/-- Logical effect of moving `count` consecutive slots out of the buffer:
each of them becomes uninitialized. -/
def clearRange (N : Nat) (buf : Nat → Option T) (h count : Nat) :
    Nat → Option T :=
  (List.range count).foldl
    (fun b i => Function.update b (wadd h i &&& (N - 1)) none) buf

/-- `SpillRing::flush` (atomics build): drain all valid items (window
`[max(head, evict_head), tail)`) to the spout in FIFO order, then set
`head`, `tail` and `evict_head` to `tail`.  Returns the count drained. -/
def flush (N : Nat) (r : SpillRing T) : Nat × SpillRing T :=
  let head := r.head
  let head := if head < r.evictHead then r.evictHead else head
  let tail := r.tail
  let count := wsub tail head
  if count = 0 then (0, r)
  else
    (count,
     { r with sink := r.sink ++ readRange N r.buffer head count,
              buffer := clearRange N r.buffer head count,
              head := tail, tail := tail, evictHead := tail })

/-- The two-segment `memcpy` of `push_slice`: write the items of `ks`
into consecutive slots starting at raw index `ti`, wrapping from the end
of the array to index 0. -/
def copyIn (N : Nat) (buf : Nat → Option T) (ti : Nat) :
    List T → (Nat → Option T)
  | [] => buf
  | x :: xs =>
      copyIn N (Function.update buf ti (some x))
        (if ti + 1 = N then 0 else ti + 1) xs

/-- `SpillRing::push_slice` (exclusive access).  An empty slice returns
immediately.  A slice longer than `N` first drains the buffered window to
the spout, sends the excess prefix straight to the spout, and resets the
ring to empty; then the remaining (at most `N`) items evict as needed and
are bulk-copied at `tail & (N-1)`.  Like `push_mut`, it never consults
`evict_head`. -/
def pushSlice (N : Nat) (r : SpillRing T) (items : List T) : SpillRing T :=
  if items.isEmpty then r
  else
    let tail := r.tail
    let head := r.head
    let step :=
      if N < items.length then
        let len := wsub tail head
        let r1 :=
          if 0 < len then
            { r with sink := r.sink ++ readRange N r.buffer head len,
                     buffer := clearRange N r.buffer head len }
          else r
        let excess := items.length - N
        let r2 := { r1 with sink := r1.sink ++ (items.take excess).map some }
        let head1 := wadd head len
        ({ r2 with head := head1, tail := head1 }, head1, head1,
         items.drop excess)
      else (r, head, tail, items)
    let r3 := step.1
    let head := step.2.1
    let tail := step.2.2.1
    let keep := step.2.2.2
    let len := wsub tail head
    let free := N - len
    let r4 :=
      if free < keep.length then
        let ec := keep.length - free
        { r3 with sink := r3.sink ++ readRange N r3.buffer head ec,
                  buffer := clearRange N r3.buffer head ec,
                  head := wadd head ec }
      else r3
    { r4 with buffer := copyIn N r4.buffer (tail &&& (N - 1)) keep,
              tail := wadd tail keep.length }

/-- `RingProducer::try_push`: fail (returning the item) when
`tail - head ≥ N`, otherwise write at `tail & (N-1)` and advance `tail`.
It never touches the spout and never evicts. -/
def tryPush (N : Nat) (r : SpillRing T) (item : T) :
    Except T Unit × SpillRing T :=
  let tail := r.tail
  let head := r.head
  if N ≤ wsub tail head then (Except.error item, r)
  else
    (Except.ok (),
     { r with buffer := Function.update r.buffer (tail &&& (N - 1)) (some item),
              tail := wadd tail 1 })

/-- `SpillRing::len`: `tail - max(head, evict_head)` (wrapping), clamped
above by `N`. -/
def len (N : Nat) (r : SpillRing T) : Nat :=
  let eff := if r.head < r.evictHead then r.evictHead else r.head
  let l := wsub r.tail eff
  if N < l then N else l

/-- `SpillRing::is_empty`. -/
def isEmpty (N : Nat) (r : SpillRing T) : Prop := len N r = 0

/-- `SpillRing::is_full`. -/
def isFull (N : Nat) (r : SpillRing T) : Prop := N ≤ len N r

instance (N : Nat) (r : SpillRing T) : Decidable (isEmpty N r) :=
  Nat.decEq _ _

instance (N : Nat) (r : SpillRing T) : Decidable (isFull N r) :=
  Nat.decLe _ _

/-- The effective head: `max(head, evict_head)`, the lower bound of the
valid window. -/
def effHead (r : SpillRing T) : Nat :=
  if r.head < r.evictHead then r.evictHead else r.head

/-- The current ring contents: the slot values of the valid window
`[max(head, evict_head), tail)`, oldest first. -/
def items (N : Nat) (r : SpillRing T) : List (Option T) :=
  readRange N r.buffer (effHead r) (wsub r.tail (effHead r))

/-- Push every element of a list in order with the shared-reference
`push`. -/
def pushAll (N : Nat) (r : SpillRing T) (xs : List T) : SpillRing T :=
  xs.foldl (push N) r

/-- Push every element of a list in order with `push_mut` (the scalar loop
`for x in xs { ring.push_mut(x) }`). -/
def pushMutAll (N : Nat) (r : SpillRing T) (xs : List T) : SpillRing T :=
  xs.foldl (pushMut N) r

/-- Pop `m` times with the shared-reference `pop`, collecting the results
in order. -/
def popN (N : Nat) (r : SpillRing T) : Nat → List (Option (Option T)) × SpillRing T
  | 0 => ([], r)
  | m + 1 =>
      let p := pop N r
      let q := popN N p.2 m
      (p.1 :: q.1, q.2)

/-- Pop `m` times with `pop_mut`, collecting the results in order. -/
def popMutN (N : Nat) (r : SpillRing T) :
    Nat → List (Option (Option T)) × SpillRing T
  | 0 => ([], r)
  | m + 1 =>
      let p := popMut N r
      let q := popMutN N p.2 m
      (p.1 :: q.1, q.2)

/-- Slot values at `count` consecutive positions modulo `N` starting at
counter value `h`.  This is `readRange` with the wrapping `&(N-1)` indexing
rewritten to plain `% N`; all window reasoning happens in this form. -/
def window (N : Nat) (buf : Nat → Option T) (h c : Nat) : List (Option T) :=
  (List.range c).map fun i => buf ((h + i) % N)

/-- Mask-free form of `clearRange`. -/
def clearW (N : Nat) (buf : Nat → Option T) (h c : Nat) : Nat → Option T :=
  (List.range c).foldl (fun b i => Function.update b ((h + i) % N) none) buf

theorem W_pos : 0 < W := Nat.pos_pow_of_pos 64 (by omega)

theorem wadd_eq {a b : Nat} (h : a + b < W) : wadd a b = a + b :=
  Nat.mod_eq_of_lt h

theorem wsub_eq {a b : Nat} (hb : b ≤ a) (ha : a < W) : wsub a b = a - b := by
  have hbW : b < W := lt_of_le_of_lt hb ha
  unfold wsub
  rw [Nat.mod_eq_of_lt hbW]
  have h1 : a + (W - b) = (a - b) + W := by omega
  rw [h1, Nat.add_mod_right, Nat.mod_eq_of_lt (by omega)]

theorem wsub_big {a b : Nat} (hab : a < b) (hb : b < W) : wsub a b = a + W - b := by
  unfold wsub
  rw [Nat.mod_eq_of_lt hb]
  have h1 : a + (W - b) = a + W - b := by omega
  rw [h1, Nat.mod_eq_of_lt (by omega)]

theorem land_eq_mod {N : Nat} (s : Nat) (hN : N = 2 ^ s) (a : Nat) :
    a &&& (N - 1) = a % N := by
  subst hN
  exact Nat.and_pow_two_sub_one_eq_mod a s

/-- Two counter values that differ by less than `N` (and are distinct)
address distinct slots. -/
theorem mod_ne_of_sub_lt {N x y : Nat} (hxy : x < y) (hs : y - x < N) :
    x % N ≠ y % N := by
  intro h
  have hd : N ∣ y - x := (Nat.modEq_iff_dvd' (le_of_lt hxy)).mp h
  have hpos : 0 < y - x := by omega
  have := Nat.le_of_dvd hpos hd
  omega

theorem window_zero (N : Nat) (buf : Nat → Option T) (h : Nat) :
    window N buf h 0 = [] := rfl

theorem window_length (N : Nat) (buf : Nat → Option T) (h c : Nat) :
    (window N buf h c).length = c := by
  simp [window]

theorem window_succ (N : Nat) (buf : Nat → Option T) (h c : Nat) :
    window N buf h (c + 1) = window N buf h c ++ [buf ((h + c) % N)] := by
  unfold window
  rw [List.range_succ]
  simp

theorem window_succ_head (N : Nat) (buf : Nat → Option T) (h c : Nat) :
    window N buf h (c + 1) = buf (h % N) :: window N buf (h + 1) c := by
  unfold window
  rw [List.range_succ_eq_map]
  simp only [List.map_cons, List.map_map, Nat.add_zero]
  congr 1
  apply List.map_congr_left
  intro i _
  simp only [Function.comp_apply]
  congr 2
  omega

theorem window_add (N : Nat) (buf : Nat → Option T) (h k m : Nat) :
    window N buf h (k + m) = window N buf h k ++ window N buf (h + k) m := by
  unfold window
  rw [List.range_add, List.map_append, List.map_map]
  congr 1
  apply List.map_congr_left
  intro i _
  simp only [Function.comp_apply]
  congr 2
  omega

/-- Updating a slot at or beyond the window leaves the window unchanged. -/
theorem window_update_of_ge (N : Nat) (buf : Nat → Option T) (h c t : Nat)
    (v : Option T) (ht : h + c ≤ t) (hlt : t < h + N) :
    window N (Function.update buf (t % N) v) h c = window N buf h c := by
  unfold window
  apply List.map_congr_left
  intro i hi
  rw [List.mem_range] at hi
  exact Function.update_noteq
    (mod_ne_of_sub_lt (N := N) (x := h + i) (y := t) (by omega) (by omega)) v buf

/-- Updating a slot strictly below the window (within one lap) leaves the
window unchanged. -/
theorem window_update_of_lt (N : Nat) (buf : Nat → Option T) (h c t : Nat)
    (v : Option T) (ht : t < h) (hlt : h + c ≤ t + N) :
    window N (Function.update buf (t % N) v) h c = window N buf h c := by
  unfold window
  apply List.map_congr_left
  intro i hi
  rw [List.mem_range] at hi
  have hne : t % N ≠ (h + i) % N :=
    mod_ne_of_sub_lt (N := N) (x := t) (y := h + i) (by omega) (by omega)
  exact Function.update_noteq (Ne.symm hne) v buf

theorem clearW_zero (N : Nat) (buf : Nat → Option T) (h : Nat) :
    clearW N buf h 0 = buf := rfl

theorem clearW_succ (N : Nat) (buf : Nat → Option T) (h c : Nat) :
    clearW N buf h (c + 1) =
      Function.update (clearW N buf h c) ((h + c) % N) none := by
  unfold clearW
  rw [List.range_succ, List.foldl_append]
  rfl

/-- Clearing `k` slots strictly below a window (within one lap) leaves the
window unchanged. -/
theorem window_clearW (N : Nat) (buf : Nat → Option T) (h k g c : Nat)
    (hg : h + k ≤ g) (hc : g + c ≤ h + N) :
    window N (clearW N buf h k) g c = window N buf g c := by
  induction k with
  | zero => rfl
  | succ k ih =>
      rw [clearW_succ,
        window_update_of_lt N _ g c (h + k) none (by omega) (by omega)]
      exact ih (by omega)

theorem readRange_eq_window {N : Nat} (s : Nat) (hN : N = 2 ^ s)
    (buf : Nat → Option T) (h c : Nat) (hw : h + c < W) :
    readRange N buf h c = window N buf h c := by
  unfold readRange window
  apply List.map_congr_left
  intro i hi
  rw [List.mem_range] at hi
  rw [land_eq_mod s hN, wadd_eq (by omega)]

theorem clearRange_eq_clearW {N : Nat} (s : Nat) (hN : N = 2 ^ s)
    (buf : Nat → Option T) (h c : Nat) (hw : h + c < W) :
    clearRange N buf h c = clearW N buf h c := by
  induction c with
  | zero => rfl
  | succ c ih =>
      unfold clearRange clearW
      rw [List.range_succ, List.foldl_append, List.foldl_append]
      have hih := ih (by omega)
      unfold clearRange clearW at hih
      rw [hih]
      simp only [List.foldl_cons, List.foldl_nil]
      rw [land_eq_mod s hN, wadd_eq (by omega)]

theorem mod_succ_wrap (N t : Nat) (hN : 0 < N) :
    (if t % N + 1 = N then 0 else t % N + 1) = (t + 1) % N := by
  have h1 : t % N < N := Nat.mod_lt t hN
  have h2 : (t + 1) % N = (t % N + 1) % N := by
    conv_lhs => rw [← Nat.mod_add_div t N]
    rw [Nat.add_right_comm, Nat.add_mul_mod_self_left]
  split
  · rename_i h
    rw [h2, h, Nat.mod_self]
  · rename_i h
    rw [h2]
    exact (Nat.mod_eq_of_lt (by omega)).symm

theorem copyIn_cons (N : Nat) (hN : 0 < N) (buf : Nat → Option T) (t : Nat)
    (x : T) (xs : List T) :
    copyIn N buf (t % N) (x :: xs) =
      copyIn N (Function.update buf (t % N) (some x)) ((t + 1) % N) xs := by
  show copyIn N (Function.update buf (t % N) (some x))
      (if t % N + 1 = N then 0 else t % N + 1) xs = _
  rw [mod_succ_wrap N t hN]

/-- Writing `ks` with the two-segment copy starting at `t % N` extends the
window ending at `t` by `ks.map some`. -/
theorem window_copyIn (N : Nat) (hN : 0 < N) (ks : List T) :
    ∀ (buf : Nat → Option T) (h c t : Nat), h + c = t → c + ks.length ≤ N →
      window N (copyIn N buf (t % N) ks) h (c + ks.length) =
        window N buf h c ++ ks.map some := by
  induction ks with
  | nil =>
      intro buf h c t hct hlen
      simp [copyIn]
  | cons x xs ih =>
      intro buf h c t hct hlen
      rw [copyIn_cons N hN]
      have h1 : c + (x :: xs).length = (c + 1) + xs.length := by
        simp [List.length_cons]
        omega
      rw [h1, ih _ h (c + 1) (t + 1) (by omega)
        (by simp only [List.length_cons] at hlen; omega)]
      rw [window_succ]
      have h2 : Function.update buf (t % N) (some x) ((h + c) % N) = some x := by
        rw [hct]
        exact Function.update_same _ _ _
      rw [h2, window_update_of_ge N buf h c t (some x) (by omega) (by omega)]
      simp

theorem effHead_eq_max (r : SpillRing T) : effHead r = max r.head r.evictHead := by
  unfold effHead
  split <;> omega

/-- The clamped length, written with `min`. -/
theorem len_eq (N : Nat) (r : SpillRing T) :
    len N r = min N (wsub r.tail (effHead r)) := by
  simp only [len, effHead]
  rcases Nat.lt_or_ge N
      (wsub r.tail (if r.head < r.evictHead then r.evictHead else r.head)) with
    h | h
  · rw [if_pos h, Nat.min_eq_left (by omega)]
  · rw [if_neg (by omega), Nat.min_eq_right (by omega)]

/-- In the no-wrap regime with `evict_head ≤ head`, the ring contents are
the head-based window. -/
theorem items_eq_window {N : Nat} (s : Nat) (hN : N = 2 ^ s) (r : SpillRing T)
    (hev : r.evictHead ≤ r.head) (hht : r.head ≤ r.tail) (htw : r.tail < W) :
    items N r = window N r.buffer r.head (r.tail - r.head) := by
  unfold items
  rw [effHead_eq_max, Nat.max_eq_left hev, wsub_eq hht htw,
    readRange_eq_window s hN _ _ _ (by omega)]

/-! Sanity checks: the model reproduces the concrete end-to-end scenarios
of the specification (section 8). -/

/-- Scenario 1: `N = 4`, drop-sink; push `[1,2,3,4,5,6]`, pop six times. -/
theorem scenario_fill_then_drain :
    (popN 4 (pushAll 4 (fresh Nat) [1, 2, 3, 4, 5, 6]) 6).1 =
      [some (some 3), some (some 4), some (some 5), some (some 6), none, none] ∧
    (pushAll 4 (fresh Nat) [1, 2, 3, 4, 5, 6]).sink = [some 1, some 2] := by
  decide

/-- Scenario 2: `N = 4`, collect-sink; push `[1,2,3,4,5]`, pop all. -/
theorem scenario_one_evicted :
    (popN 4 (pushAll 4 (fresh Nat) [1, 2, 3, 4, 5]) 4).1 =
      [some (some 2), some (some 3), some (some 4), some (some 5)] ∧
    (pushAll 4 (fresh Nat) [1, 2, 3, 4, 5]).sink = [some 1] := by
  decide

/-- Scenario 4: `N = 8`, collect-sink; push `[1,2]`, pop one, push `[3,4]`,
flush. -/
theorem scenario_pop_then_flush :
    (pop 8 (pushAll 8 (fresh Nat) [1, 2])).1 = some (some 1) ∧
    (flush 8 (pushAll 8 (pop 8 (pushAll 8 (fresh Nat) [1, 2])).2 [3, 4])).1 = 3 ∧
    (flush 8 (pushAll 8 (pop 8 (pushAll 8 (fresh Nat) [1, 2])).2 [3, 4])).2.sink =
      [some 2, some 3, some 4] := by
  decide

/-- Scenario 6: a cold ring has all counters zero and is empty. -/
theorem scenario_cold_empty :
    len 2 (fresh Nat) = 0 ∧ (fresh Nat).head = 0 ∧ (fresh Nat).tail = 0 ∧
    (fresh Nat).evictHead = 0 := by
  decide

/-! Claim C3. -/

/-- C3: for every ring state (even a transiently inconsistent one), `len()`
returns `tail − max(head, evict_head)` (computed with `wrapping_sub`)
clamped to `[0, N]`; in particular `len() ≤ N` always. -/
theorem c3_len_clamped (N : Nat) (r : SpillRing T) :
    len N r = min N (wsub r.tail (max r.head r.evictHead)) ∧ len N r ≤ N := by
  have h := len_eq N r
  rw [effHead_eq_max] at h
  exact ⟨h, by rw [h]; exact Nat.min_le_left _ _⟩

/-! Claim C9. -/

/-- C9: `push_slice` with an empty slice is a no-op: it returns immediately
and leaves every counter, the buffer and the spout unchanged. -/
theorem c9_pushSlice_nil_noop (N : Nat) (r : SpillRing T) :
    pushSlice N r [] = r := rfl

/-! Claim C10. -/

/-- C10: `pop_mut` (atomic variant) first advances the head to
`max(head, evict_head)` and resynchronizes the counters: on every exit path
(both `Some` and `None`) it stores the same value into `head` and
`evict_head`, so `head = evict_head` holds afterwards. -/
theorem c10_popMut_resyncs (N : Nat) (r : SpillRing T) :
    (popMut N r).2.head = (popMut N r).2.evictHead ∧
    (popMut N r).2.head =
      (if (popMut N r).1.isNone then max r.head r.evictHead
       else wadd (max r.head r.evictHead) 1) := by
  have hm : (if r.head < r.evictHead then r.evictHead else r.head) =
      max r.head r.evictHead := by
    rw [Nat.max_def]
    split <;> split <;> omega
  rw [← hm]
  by_cases h : (if r.head < r.evictHead then r.evictHead else r.head) = r.tail
  · simp [popMut, h]
  · simp [popMut, h]

/-! Claims C1 and C7: the operation sequence push(1), push(2), push(3),
push_mut(4) on a fresh ring of capacity 2.

The third shared `push` finds the ring full and evicts item 1 by advancing
`evict_head` to 1, leaving `head = 0`.  The subsequent `push_mut` compares
fullness against the stale `head` without reconciling it with `evict_head`
(unlike `pop_mut` and `flush`, which do), so it sees a window of 3 items in
a ring of capacity 2: it evicts the slot at `head & 1`, which holds the
newest item 3 rather than the oldest valid item, and its write at
`tail & 1` overwrites item 2, which is still inside the valid window and
has never been delivered anywhere. -/

/-- State after push(1), push(2), push(3), push_mut(4) on a fresh ring of
capacity `N = 2`. -/
def bugRing : SpillRing Nat :=
  pushMut 2 (pushAll 2 (fresh Nat) [1, 2, 3]) 4

/-- C7 fails on the code: after the operation sequence of `bugRing`, the
counters satisfy `tail − max(head, evict_head) = 3 > 2 = N`: the
counter-window invariant `tail − max(head, evict_head) ≤ N` is violated. -/
theorem c7_counter_window_violated :
    bugRing.head = 1 ∧ bugRing.evictHead = 1 ∧ bugRing.tail = 4 ∧
    wsub bugRing.tail (max bugRing.head bugRing.evictHead) = 3 ∧
    ¬ wsub bugRing.tail (max bugRing.head bugRing.evictHead) ≤ 2 := by
  decide

/-- C1 fails on the code: over the full lifetime of `bugRing` (drain with
`pop_mut` until empty, then the drop path `flush`), the pushed item 2 is
never delivered to the consumer nor to the spout — it was overwritten while
still valid.  The two `some none` pop results are reads of slots whose
values had already been moved out (in the Rust code, with a `Copy` payload,
they re-deliver items 3 and 4 a second time). -/
theorem c1_exactly_once_violated :
    (popMutN 2 bugRing 4).1 = [some (some 4), some none, some none, none] ∧
    bugRing.sink = [some 1, some 3] ∧
    (flush 2 (popMutN 2 bugRing 4).2).1 = 0 ∧
    (flush 2 (popMutN 2 bugRing 4).2).2.sink = [some 1, some 3] ∧
    some (some 2) ∉ (popMutN 2 bugRing 4).1 ∧
    some 2 ∉ (flush 2 (popMutN 2 bugRing 4).2).2.sink := by
  decide

/-! Claim C4. -/

/-- C4: `try_push` never evicts and is atomic on failure: on a full ring it
returns `Err(item)` and leaves the whole state (counters, buffer contents,
spout) unchanged; otherwise it writes the item into the slot at
`tail mod N`, advances `tail` by one, sends nothing to the spout, and
returns `Ok(())`.  The ring state is constrained to the counter regime the
ring maintains: `head ≤ tail`, `evict_head ≤ tail`, no counter wrap
pending, and `evict_head` either behind `head` or at least a full window
behind `tail` (the eviction path only ever advances `evict_head` together
with `tail`). -/
theorem c4_tryPush_no_evict (N s : Nat) (r : SpillRing T) (x : T)
    (hs : N = 2 ^ s) (hht : r.head ≤ r.tail) (hev : r.evictHead ≤ r.tail)
    (htw : r.tail + 1 < W)
    (hre : r.evictHead ≤ r.head ∨ N ≤ r.tail - r.evictHead) :
    (isFull N r → tryPush N r x = (Except.error x, r)) ∧
    (¬ isFull N r →
      tryPush N r x =
        (Except.ok (),
         { r with
            buffer := Function.update r.buffer (r.tail % N) (some x),
            tail := r.tail + 1 })) := by
  have hmle : max r.head r.evictHead ≤ r.tail := Nat.max_le.mpr ⟨hht, hev⟩
  have hlen : len N r = min N (r.tail - max r.head r.evictHead) := by
    rw [len_eq, effHead_eq_max, wsub_eq hmle (by omega)]
  constructor
  · intro hf
    unfold isFull at hf
    rw [hlen] at hf
    have h2 : N ≤ r.tail - r.head := by
      have h3 : r.head ≤ max r.head r.evictHead := Nat.le_max_left _ _
      omega
    simp only [tryPush]
    rw [wsub_eq hht (by omega), if_pos h2]
  · intro hf
    unfold isFull at hf
    rw [hlen] at hf
    have h1 : r.tail - max r.head r.evictHead < N := by omega
    have h2 : r.tail - r.head < N := by
      rcases hre with hc | hc
      · rw [Nat.max_eq_left hc] at h1
        exact h1
      · rcases le_or_lt r.evictHead r.head with hd | hd
        · rw [Nat.max_eq_left hd] at h1
          exact h1
        · rw [Nat.max_eq_right (le_of_lt hd)] at h1
          omega
    simp only [tryPush]
    rw [wsub_eq hht (by omega), if_neg (by omega), land_eq_mod s hs,
      wadd_eq (by omega)]

/-- A full ring of capacity 2 with `evict_head ≤ head`, reached by two
pushes from a fresh ring. -/
def fullRing2 : SpillRing Nat := pushAll 2 (fresh Nat) [5, 6]

/-- Witness for C4: on the concrete full ring `fullRing2`, `try_push`
returns the item back and changes nothing. -/
theorem c4_tryPush_no_evict_witness :
    tryPush 2 fullRing2 7 = (Except.error 7, fullRing2) := by
  have h := c4_tryPush_no_evict 2 1 fullRing2 7 (by decide) (by decide)
    (by decide) (by decide) (Or.inl (by decide))
  exact h.1 (by decide)

/-! Claim C6.  The claim fails as stated: on a ring whose valid window is
already empty, `flush` returns 0 without storing anything, so a counter
that lags `tail` (such as `evict_head` after shared-reference pops) stays
behind; the amended postcondition sets the three counters to `tail` only
when at least one item was drained, and leaves the state unchanged
otherwise.  Emptiness afterwards holds in both cases. -/

/-- A reachable ring state (capacity 2: push 1, push 2, pop, pop) with
`head = tail = 2` but `evict_head = 0`. -/
def flushCexRing : SpillRing Nat :=
  (pop 2 (pop 2 (pushAll 2 (fresh Nat) [1, 2])).2).2

/-- Counterexample to C6 as stated: on the reachable empty ring
`flushCexRing` (head = tail = 2, evict_head = 0), `flush` does not set
`evict_head = tail`. -/
theorem c6_counterexample :
    (flush 2 flushCexRing).2.evictHead ≠ (flush 2 flushCexRing).2.tail := by
  decide

/-- C6 (amended): `flush` sends exactly the currently-valid items (the
window `[max(head, evict_head), tail)`) to the spout in FIFO order and
returns their number; if at least one item was drained it sets `head`,
`tail` and `evict_head` all to `tail`; if the window was already empty it
returns 0 and leaves the state unchanged.  In all cases the ring is empty
afterwards. -/
theorem c6_flush_spec (N : Nat) (r : SpillRing T)
    (hht : r.head ≤ r.tail) (hev : r.evictHead ≤ r.tail) (htw : r.tail < W) :
    (flush N r).1 = wsub r.tail (effHead r) ∧
    (flush N r).2.sink = r.sink ++ items N r ∧
    len N (flush N r).2 = 0 ∧
    (0 < wsub r.tail (effHead r) →
      (flush N r).2.head = r.tail ∧ (flush N r).2.tail = r.tail ∧
      (flush N r).2.evictHead = r.tail) ∧
    (wsub r.tail (effHead r) = 0 → (flush N r).2 = r) := by
  have heff : (if r.head < r.evictHead then r.evictHead else r.head) =
      effHead r := rfl
  have hele : effHead r ≤ r.tail := by
    rw [effHead_eq_max]
    exact Nat.max_le.mpr ⟨hht, hev⟩
  by_cases hc : wsub r.tail (effHead r) = 0
  · have hres : flush N r = (0, r) := by
      simp only [flush, heff]
      rw [if_pos hc]
    rw [hres]
    have hitems : items N r = [] := by
      unfold items
      rw [hc]
      rfl
    refine ⟨hc.symm, ?_, ?_, by omega, fun _ => rfl⟩
    · rw [hitems]
      simp
    · rw [len_eq, hc]
      simp
  · have hres : flush N r =
        (wsub r.tail (effHead r),
         { r with
            sink := r.sink ++
              readRange N r.buffer (effHead r) (wsub r.tail (effHead r)),
            buffer := clearRange N r.buffer (effHead r) (wsub r.tail (effHead r)),
            head := r.tail, tail := r.tail, evictHead := r.tail }) := by
      simp only [flush, heff]
      rw [if_neg hc]
    rw [hres]
    refine ⟨rfl, rfl, ?_, fun _ => ⟨rfl, rfl, rfl⟩, fun h0 => absurd h0 hc⟩
    rw [len_eq]
    simp only [effHead, lt_irrefl, if_neg, ite_self]
    rw [wsub_eq le_rfl htw]
    simp

/-- Witness for the amended C6 on a nonempty concrete ring: two items
drained, all counters set to `tail`, ring empty afterwards. -/
theorem c6_flush_spec_witness :
    (flush 2 fullRing2).1 = 2 ∧ (flush 2 fullRing2).2.head = 2 ∧
    (flush 2 fullRing2).2.tail = 2 ∧ (flush 2 fullRing2).2.evictHead = 2 ∧
    len 2 (flush 2 fullRing2).2 = 0 := by
  have h := c6_flush_spec 2 fullRing2 (by decide) (by decide) (by decide)
  have hp := h.2.2.2.1 (by decide)
  exact ⟨h.1.trans (by decide), hp.1.trans (by decide), hp.2.1.trans (by decide),
    hp.2.2.trans (by decide), h.2.2.1⟩

/-- Evaluation of `push_slice` for a slice longer than the capacity: the
current window and then the excess prefix go to the spout, the ring is
reset, and the last `N` items are bulk-copied at `tail & (N-1)`. -/
theorem pushSlice_big (N s : Nat) (r : SpillRing T) (xs : List T)
    (hs : N = 2 ^ s) (hbig : N < xs.length) (hht : r.head ≤ r.tail)
    (hcap : r.tail - r.head ≤ N) (hw : r.tail + N < W) :
    pushSlice N r xs =
      { r with
        sink := r.sink ++ window N r.buffer r.head (r.tail - r.head) ++
          (xs.take (xs.length - N)).map some,
        buffer := copyIn N (clearW N r.buffer r.head (r.tail - r.head))
          (r.tail % N) (xs.drop (xs.length - N)),
        head := r.tail, tail := r.tail + N } := by
  have hN0 : 0 < N := by
    rw [hs]
    exact Nat.pos_pow_of_pos s (by omega)
  have hne : xs.isEmpty = false := by
    cases xs with
    | nil => simp at hbig
    | cons a l => rfl
  have hc : wsub r.tail r.head = r.tail - r.head := wsub_eq hht (by omega)
  have hwadd : wadd r.head (r.tail - r.head) = r.tail := by
    rw [wadd_eq (by omega)]
    omega
  have hkeep : (xs.drop (xs.length - N)).length = N := by
    rw [List.length_drop]
    omega
  have hz : wsub r.tail r.tail = 0 := by
    rw [wsub_eq le_rfl (by omega)]
    omega
  have hrr : readRange N r.buffer r.head (r.tail - r.head) =
      window N r.buffer r.head (r.tail - r.head) :=
    readRange_eq_window s hs _ _ _ (by omega)
  have hcr : clearRange N r.buffer r.head (r.tail - r.head) =
      clearW N r.buffer r.head (r.tail - r.head) :=
    clearRange_eq_clearW s hs _ _ _ (by omega)
  have hwN : wadd r.tail N = r.tail + N := wadd_eq (by omega)
  simp only [pushSlice, hne, Bool.false_eq_true, if_false, if_pos hbig, hc,
    hwadd, hz, hkeep, Nat.sub_zero, lt_irrefl, land_eq_mod s hs, hrr, hcr,
    hwN]
  by_cases h0 : 0 < r.tail - r.head
  · rw [if_pos h0]
  · rw [if_neg h0]
    have he : r.tail - r.head = 0 := by omega
    rw [he, clearW_zero, window_zero, List.append_nil]

/-! Claim C5. -/

/-- C5: for a slice longer than the capacity, `push_slice` first sends all
currently-buffered ring items to the spout, then sends the prefix
`items[..items.len() − N]` to the spout without writing it into the buffer,
and leaves the ring containing exactly the last `N` items of the slice in
order (with `head` advanced to the old `tail` and `tail` to `tail + N`).
The state hypotheses are the exclusive-mode counter regime. -/
theorem c5_pushSlice_oversized (N s : Nat) (r : SpillRing T) (xs : List T)
    (hs : N = 2 ^ s) (hbig : N < xs.length) (hev : r.evictHead ≤ r.head)
    (hht : r.head ≤ r.tail) (hcap : r.tail - r.head ≤ N)
    (hw : r.tail + N < W) :
    (pushSlice N r xs).sink =
      r.sink ++ items N r ++ (xs.take (xs.length - N)).map some ∧
    items N (pushSlice N r xs) = (xs.drop (xs.length - N)).map some ∧
    (pushSlice N r xs).head = r.tail ∧
    (pushSlice N r xs).tail = r.tail + N := by
  have hN0 : 0 < N := by
    rw [hs]
    exact Nat.pos_pow_of_pos s (by omega)
  have hkeep : (xs.drop (xs.length - N)).length = N := by
    rw [List.length_drop]
    omega
  have hps := pushSlice_big N s r xs hs hbig hht hcap hw
  rw [hps]
  refine ⟨?_, ?_, rfl, rfl⟩
  · rw [items_eq_window s hs r hev hht (by omega)]
  · rw [items_eq_window s hs _ (by simpa using hev.trans hht) (by simp)
      (by simpa using hw)]
    simp only
    have h1 : r.tail + N - r.tail = N := by omega
    rw [h1]
    have h2 := window_copyIn N hN0 (xs.drop (xs.length - N))
      (clearW N r.buffer r.head (r.tail - r.head)) r.tail 0 r.tail
      (by omega) (by omega)
    rw [hkeep, Nat.zero_add] at h2
    rw [h2, window_zero, List.nil_append]

/-- Witness for C5: the spec's concrete scenario 3, `N = 2`, empty ring,
`push_slice([10,20,30,40,50])`: ring holds `[40, 50]`, spout holds
`[10, 20, 30]`. -/
theorem c5_pushSlice_oversized_witness :
    items 2 (pushSlice 2 (fresh Nat) [10, 20, 30, 40, 50]) =
      [some 40, some 50] ∧
    (pushSlice 2 (fresh Nat) [10, 20, 30, 40, 50]).sink =
      [some 10, some 20, some 30] := by
  have h := c5_pushSlice_oversized 2 1 (fresh Nat) [10, 20, 30, 40, 50]
    (by decide) (by decide) (by decide) (by decide) (by decide) (by decide)
  exact ⟨h.2.1.trans (by decide), h.1.trans (by decide)⟩

/-- Evaluation of `push_slice` for a nonempty slice of at most `N` items:
`max(0, len + |xs| − N)` oldest items are evicted to the spout, the slice
is bulk-copied at `tail & (N-1)`, and the counters advance. -/
theorem pushSlice_small (N s : Nat) (r : SpillRing T) (xs : List T)
    (hs : N = 2 ^ s) (hne : xs ≠ []) (hlen : xs.length ≤ N)
    (hht : r.head ≤ r.tail) (hcap : r.tail - r.head ≤ N)
    (hw : r.tail + xs.length < W) :
    pushSlice N r xs =
      { r with
        sink := r.sink ++
          window N r.buffer r.head ((r.tail - r.head) + xs.length - N),
        buffer := copyIn N
          (clearW N r.buffer r.head ((r.tail - r.head) + xs.length - N))
          (r.tail % N) xs,
        head := r.head + ((r.tail - r.head) + xs.length - N),
        tail := r.tail + xs.length } := by
  have hne' : xs.isEmpty = false := by
    cases xs with
    | nil => exact absurd rfl hne
    | cons a l => rfl
  have hc : wsub r.tail r.head = r.tail - r.head := wsub_eq hht (by omega)
  have hwt : wadd r.tail xs.length = r.tail + xs.length := wadd_eq (by omega)
  simp only [pushSlice, hne', Bool.false_eq_true, if_false,
    if_neg (show ¬ N < xs.length by omega), hc, land_eq_mod s hs, hwt]
  by_cases h0 : N - (r.tail - r.head) < xs.length
  · have hec : xs.length - (N - (r.tail - r.head)) =
        (r.tail - r.head) + xs.length - N := by omega
    have hwh : wadd r.head ((r.tail - r.head) + xs.length - N) =
        r.head + ((r.tail - r.head) + xs.length - N) := wadd_eq (by omega)
    have hrr : readRange N r.buffer r.head ((r.tail - r.head) + xs.length - N) =
        window N r.buffer r.head ((r.tail - r.head) + xs.length - N) :=
      readRange_eq_window s hs _ _ _ (by omega)
    have hcr : clearRange N r.buffer r.head ((r.tail - r.head) + xs.length - N) =
        clearW N r.buffer r.head ((r.tail - r.head) + xs.length - N) :=
      clearRange_eq_clearW s hs _ _ _ (by omega)
    rw [if_pos h0, hec, hwh, hrr, hcr]
  · have hec : (r.tail - r.head) + xs.length - N = 0 := by omega
    rw [if_neg h0, hec, clearW_zero, window_zero, List.append_nil,
      Nat.add_zero]

/-- The head-based valid window of an exclusive-mode ring state: the ring
contents when `evict_head ≤ head`. -/
def absQ (N : Nat) (r : SpillRing T) : List (Option T) :=
  window N r.buffer r.head (r.tail - r.head)

theorem absQ_length (N : Nat) (r : SpillRing T) :
    (absQ N r).length = r.tail - r.head := window_length _ _ _ _

/-- Evaluation of `push_mut` on a non-full ring. -/
theorem pushMut_not_full (N s : Nat) (r : SpillRing T) (x : T)
    (hs : N = 2 ^ s) (hht : r.head ≤ r.tail) (hlt : r.tail - r.head < N)
    (htw : r.tail + 1 < W) :
    pushMut N r x =
      { r with buffer := Function.update r.buffer (r.tail % N) (some x),
               tail := r.tail + 1 } := by
  have hc : wsub r.tail r.head = r.tail - r.head := wsub_eq hht (by omega)
  have hw1 : wadd r.tail 1 = r.tail + 1 := wadd_eq htw
  simp only [pushMut, hc, land_eq_mod s hs, hw1]
  rw [if_neg (by omega)]

/-- Evaluation of `push_mut` on a full ring: the slot at `head & (N-1)` is
moved to the spout, `head` advances, and the new item overwrites the same
physical slot (`tail ≡ head (mod N)` when `tail − head = N`). -/
theorem pushMut_full (N s : Nat) (r : SpillRing T) (x : T)
    (hs : N = 2 ^ s) (heq : r.tail - r.head = N) (hht : r.head ≤ r.tail)
    (htw : r.tail + 1 < W) :
    pushMut N r x =
      { r with buffer := Function.update r.buffer (r.tail % N) (some x),
               sink := r.sink ++ [r.buffer (r.head % N)],
               head := r.head + 1, tail := r.tail + 1 } := by
  have hc : wsub r.tail r.head = r.tail - r.head := wsub_eq hht (by omega)
  have hw1 : wadd r.tail 1 = r.tail + 1 := wadd_eq htw
  have hwh : wadd r.head 1 = r.head + 1 := wadd_eq (by omega)
  have hmod : r.head % N = r.tail % N := by
    have h1 : r.tail = r.head + N := by omega
    rw [h1, Nat.add_mod_right]
  have hupd : Function.update (Function.update r.buffer (r.head % N) none)
      (r.tail % N) (some x) = Function.update r.buffer (r.tail % N) (some x) := by
    rw [show r.head % N = r.tail % N from hmod, Function.update_idem]
  simp only [pushMut, hc, land_eq_mod s hs, hw1, hwh]
  rw [if_pos (by omega)]
  simp only [hupd]

/-- Abstract effect of one `push_mut` on window, spout trace and
counters. -/
theorem pushMut_step (N s : Nat) (r : SpillRing T) (x : T)
    (hs : N = 2 ^ s) (hht : r.head ≤ r.tail) (hcap : r.tail - r.head ≤ N)
    (htw : r.tail + 1 < W) :
    absQ N (pushMut N r x) =
      (if r.tail - r.head = N then (absQ N r).drop 1 else absQ N r) ++
        [some x] ∧
    (pushMut N r x).sink =
      r.sink ++ (if r.tail - r.head = N then (absQ N r).take 1 else []) ∧
    (pushMut N r x).head =
      (if r.tail - r.head = N then r.head + 1 else r.head) ∧
    (pushMut N r x).tail = r.tail + 1 ∧
    (pushMut N r x).evictHead = r.evictHead := by
  have hN0 : 0 < N := by
    rw [hs]
    exact Nat.pos_pow_of_pos s (by omega)
  by_cases hfull : r.tail - r.head = N
  · have hq : absQ N r =
        r.buffer (r.head % N) :: window N r.buffer (r.head + 1) (N - 1) := by
      unfold absQ
      rw [hfull]
      calc window N r.buffer r.head N
          = window N r.buffer r.head ((N - 1) + 1) := by
            congr 1
            omega
        _ = r.buffer (r.head % N) :: window N r.buffer (r.head + 1) (N - 1) :=
            window_succ_head _ _ _ _
    rw [pushMut_full N s r x hs hfull hht htw, if_pos hfull, if_pos hfull,
      if_pos hfull]
    refine ⟨?_, ?_, rfl, rfl, rfl⟩
    · unfold absQ
      simp only
      have h1 : r.tail + 1 - (r.head + 1) = N := by omega
      rw [h1]
      calc window N (Function.update r.buffer (r.tail % N) (some x))
            (r.head + 1) N
          = window N (Function.update r.buffer (r.tail % N) (some x))
              (r.head + 1) ((N - 1) + 1) := by
            congr 1
            omega
        _ = window N (Function.update r.buffer (r.tail % N) (some x))
              (r.head + 1) (N - 1) ++
            [Function.update r.buffer (r.tail % N) (some x)
              ((r.head + 1 + (N - 1)) % N)] := window_succ _ _ _ _
        _ = window N r.buffer (r.head + 1) (N - 1) ++ [some x] := by
            rw [window_update_of_ge N r.buffer (r.head + 1) (N - 1) r.tail
              (some x) (by omega) (by omega),
              show r.head + 1 + (N - 1) = r.tail from by omega,
              Function.update_same]
        _ = (absQ N r).drop 1 ++ [some x] := by
            rw [hq]
            simp
    · rw [hq]
      simp
  · rw [pushMut_not_full N s r x hs hht (by omega) htw, if_neg hfull,
      if_neg hfull, if_neg hfull]
    refine ⟨?_, by simp, rfl, rfl, rfl⟩
    unfold absQ
    simp only
    have h1 : r.tail + 1 - r.head = (r.tail - r.head) + 1 := by omega
    rw [h1, window_succ,
      show r.head + (r.tail - r.head) = r.tail from by omega,
      Function.update_same,
      window_update_of_ge N r.buffer r.head (r.tail - r.head) r.tail (some x)
        (by omega) (by omega)]

theorem drop_shift {A : Type} (q : List A) (x : A) (l : List A) (m : Nat)
    (hq : q ≠ []) :
    ((q.drop 1 ++ [x]) ++ l).drop m = (q ++ x :: l).drop (m + 1) := by
  obtain ⟨a, t, rfl⟩ := List.exists_cons_of_ne_nil hq
  simp [List.append_assoc]

theorem take_shift {A : Type} (s q : List A) (x : A) (l : List A) (m : Nat)
    (hq : q ≠ []) :
    (s ++ q.take 1) ++ ((q.drop 1 ++ [x]) ++ l).take m =
      s ++ (q ++ x :: l).take (m + 1) := by
  obtain ⟨a, t, rfl⟩ := List.exists_cons_of_ne_nil hq
  simp [List.append_assoc]

/-- Closed form of the scalar loop `for x in xs { push_mut(x) }` on an
exclusive-mode state: the final window is what remains of
(old window ++ slice) after the `len + |xs| − N` overflowing entries, which
are sent to the spout in order. -/
theorem pushMutAll_spec (N s : Nat) (hs : N = 2 ^ s) :
    ∀ (xs : List T) (r : SpillRing T), r.head ≤ r.tail → r.tail - r.head ≤ N →
      r.tail + xs.length < W →
      absQ N (pushMutAll N r xs) =
        (absQ N r ++ xs.map some).drop
          ((r.tail - r.head) + xs.length - N) ∧
      (pushMutAll N r xs).sink =
        r.sink ++ (absQ N r ++ xs.map some).take
          ((r.tail - r.head) + xs.length - N) ∧
      (pushMutAll N r xs).head ≤ (pushMutAll N r xs).tail ∧
      (pushMutAll N r xs).tail - (pushMutAll N r xs).head ≤ N ∧
      (pushMutAll N r xs).tail = r.tail + xs.length ∧
      (pushMutAll N r xs).evictHead = r.evictHead ∧
      r.head ≤ (pushMutAll N r xs).head := by
  have hN0 : 0 < N := by
    rw [hs]
    exact Nat.pos_pow_of_pos s (by omega)
  intro xs
  induction xs with
  | nil =>
      intro r hht hcap hw
      have h0 : (r.tail - r.head) + List.length ([] : List T) - N = 0 := by
        simp
        omega
      refine ⟨?_, ?_, hht, hcap, by simp [pushMutAll], rfl, le_rfl⟩
      · rw [h0]
        simp [pushMutAll]
      · rw [h0]
        simp [pushMutAll]
  | cons x l ih =>
      intro r hht hcap hw
      have hlw : r.tail + 1 < W := by
        simp only [List.length_cons] at hw
        omega
      obtain ⟨hq1, hs1, hh1, ht1, he1⟩ := pushMut_step N s r x hs hht hcap hlw
      have hfold : pushMutAll N r (x :: l) = pushMutAll N (pushMut N r x) l :=
        rfl
      by_cases hfull : r.tail - r.head = N
      · rw [if_pos hfull] at hq1 hs1 hh1
        have hqne : absQ N r ≠ [] := by
          have := absQ_length N r
          intro hnil
          rw [hnil] at this
          simp at this
          omega
        have hht1 : (pushMut N r x).head ≤ (pushMut N r x).tail := by
          rw [hh1, ht1]
          omega
        have hcap1 : (pushMut N r x).tail - (pushMut N r x).head ≤ N := by
          rw [hh1, ht1]
          omega
        have hc1 : (pushMut N r x).tail - (pushMut N r x).head = N := by
          rw [hh1, ht1]
          omega
        have hw1 : (pushMut N r x).tail + l.length < W := by
          rw [ht1]
          simp only [List.length_cons] at hw
          omega
        obtain ⟨ihq, ihs, ihht, ihcap, ihtail, ihev, ihh⟩ :=
          ih (pushMut N r x) hht1 hcap1 hw1
        rw [hc1, hq1] at ihq
        rw [hc1, hq1, hs1] at ihs
        have hm : N + l.length - N = l.length := by omega
        rw [hm] at ihq ihs
        have hcnt : r.tail - r.head + (x :: l).length - N = l.length + 1 := by
          simp only [List.length_cons]
          omega
        rw [hfold]
        refine ⟨?_, ?_, ihht, ihcap, ?_, by rw [ihev, he1], ?_⟩
        · rw [hcnt, ihq, drop_shift _ _ _ _ hqne, List.map_cons]
        · rw [hcnt, ihs, take_shift _ _ _ _ _ hqne, List.map_cons]
        · rw [ihtail, ht1]
          simp only [List.length_cons]
          omega
        · refine le_trans ?_ ihh
          rw [hh1]
          omega
      · rw [if_neg hfull] at hq1 hs1 hh1
        have hht1 : (pushMut N r x).head ≤ (pushMut N r x).tail := by
          rw [hh1, ht1]
          omega
        have hcap1 : (pushMut N r x).tail - (pushMut N r x).head ≤ N := by
          rw [hh1, ht1]
          omega
        have hc1 : (pushMut N r x).tail - (pushMut N r x).head =
            (r.tail - r.head) + 1 := by
          rw [hh1, ht1]
          omega
        have hw1 : (pushMut N r x).tail + l.length < W := by
          rw [ht1]
          simp only [List.length_cons] at hw
          omega
        obtain ⟨ihq, ihs, ihht, ihcap, ihtail, ihev, ihh⟩ :=
          ih (pushMut N r x) hht1 hcap1 hw1
        rw [hc1, hq1] at ihq
        rw [hc1, hq1, hs1] at ihs
        rw [List.append_nil] at ihs
        have hcnt : r.tail - r.head + (x :: l).length - N =
            (r.tail - r.head + 1) + l.length - N := by
          simp only [List.length_cons]
          omega
        rw [hfold]
        refine ⟨?_, ?_, ihht, ihcap, ?_, by rw [ihev, he1], ?_⟩
        · rw [hcnt, ihq, List.append_assoc, List.map_cons,
            List.singleton_append]
        · rw [hcnt, ihs, List.append_assoc, List.map_cons,
            List.singleton_append]
        · rw [ihtail, ht1]
          simp only [List.length_cons]
          omega
        · refine le_trans ?_ ihh
          rw [hh1]

/-- Closed form of `push_slice` on an exclusive-mode state: the same final
window and the same spout trace extension as the scalar loop. -/
theorem pushSlice_spec (N s : Nat) (r : SpillRing T) (xs : List T)
    (hs : N = 2 ^ s) (hht : r.head ≤ r.tail) (hcap : r.tail - r.head ≤ N)
    (hw : r.tail + xs.length + N < W) :
    absQ N (pushSlice N r xs) =
      (absQ N r ++ xs.map some).drop ((r.tail - r.head) + xs.length - N) ∧
    (pushSlice N r xs).sink =
      r.sink ++ (absQ N r ++ xs.map some).take
        ((r.tail - r.head) + xs.length - N) ∧
    (pushSlice N r xs).head ≤ (pushSlice N r xs).tail ∧
    (pushSlice N r xs).tail < W ∧
    (pushSlice N r xs).evictHead = r.evictHead ∧
    r.head ≤ (pushSlice N r xs).head := by
  have hN0 : 0 < N := by
    rw [hs]
    exact Nat.pos_pow_of_pos s (by omega)
  rcases Nat.lt_or_ge N xs.length with hbig | hsmall
  · -- oversized slice
    have hL : N ≤ xs.length := by omega
    rw [pushSlice_big N s r xs hs hbig hht hcap (by omega)]
    have hqlen : (absQ N r).length = r.tail - r.head := absQ_length N r
    have hkeep : (xs.drop (xs.length - N)).length = N := by
      rw [List.length_drop]
      omega
    have hcnt : (r.tail - r.head) + xs.length - N =
        (window N r.buffer r.head (r.tail - r.head)).length +
          (xs.length - N) := by
      rw [window_length]
      omega
    refine ⟨?_, ?_, by simp, by simp; omega, rfl, by simp; omega⟩
    · unfold absQ
      simp only
      have h1 : r.tail + N - r.tail = N := by omega
      rw [h1]
      have h2 := window_copyIn N hN0 (xs.drop (xs.length - N))
        (clearW N r.buffer r.head (r.tail - r.head)) r.tail 0 r.tail
        (by omega) (by omega)
      rw [hkeep, Nat.zero_add] at h2
      rw [h2, window_zero, List.nil_append, hcnt, List.drop_append,
        List.map_drop]
    · unfold absQ
      simp only
      rw [hcnt, List.take_append, ← List.map_take, List.append_assoc]
  · -- slice fits: at most N items
    by_cases hxe : xs = []
    · subst hxe
      have hnil : pushSlice N r ([] : List T) = r := rfl
      rw [hnil]
      have h0 : (r.tail - r.head) + List.length ([] : List T) - N = 0 := by
        simp
        omega
      rw [h0]
      refine ⟨by simp, by simp, hht, by omega, rfl, le_rfl⟩
    · rw [pushSlice_small N s r xs hs hxe hsmall hht hcap (by omega)]
      have hsplit : window N r.buffer r.head (r.tail - r.head) =
          window N r.buffer r.head ((r.tail - r.head) + xs.length - N) ++
          window N r.buffer
            (r.head + ((r.tail - r.head) + xs.length - N))
            ((r.tail - r.head) - ((r.tail - r.head) + xs.length - N)) := by
        rw [← window_add]
        congr 1
        omega
      refine ⟨?_, ?_,
        show r.head + ((r.tail - r.head) + xs.length - N) ≤
          r.tail + xs.length by omega,
        show r.tail + xs.length < W by omega, rfl,
        show r.head ≤ r.head + ((r.tail - r.head) + xs.length - N)
          by omega⟩
      · unfold absQ
        simp only
        have hc2 : r.tail + xs.length -
            (r.head + ((r.tail - r.head) + xs.length - N)) =
            ((r.tail - r.head) - ((r.tail - r.head) + xs.length - N)) +
              xs.length := by
          omega
        rw [hc2]
        have h2 := window_copyIn N hN0 xs
          (clearW N r.buffer r.head ((r.tail - r.head) + xs.length - N))
          (r.head + ((r.tail - r.head) + xs.length - N))
          ((r.tail - r.head) - ((r.tail - r.head) + xs.length - N))
          r.tail (by omega) (by omega)
        rw [h2, window_clearW N r.buffer r.head _ _ _ (le_refl _) (by omega),
          hsplit, List.append_assoc,
          List.drop_left' (window_length N r.buffer r.head _)]
      · unfold absQ
        simp only
        rw [hsplit, List.append_assoc,
          List.take_left' (window_length N r.buffer r.head _)]

/-! Claim C8. -/

/-- C8: bulk/scalar equivalence: on an exclusive-mode state, `push_slice(xs)`
produces the same final ring contents (same items in the same order) as
pushing each element of `xs` in order with `push_mut`, and the multiset of
items sent to the spout is the same in both cases. -/
theorem c8_bulk_scalar_equiv (N s : Nat) (r : SpillRing T) (xs : List T)
    (hs : N = 2 ^ s) (hev : r.evictHead ≤ r.head) (hht : r.head ≤ r.tail)
    (hcap : r.tail - r.head ≤ N) (hw : r.tail + xs.length + N < W) :
    items N (pushSlice N r xs) = items N (pushMutAll N r xs) ∧
    Multiset.ofList (pushSlice N r xs).sink =
      Multiset.ofList (pushMutAll N r xs).sink := by
  obtain ⟨hq1, hs1, hht1, htw1, hev1, hh1⟩ :=
    pushSlice_spec N s r xs hs hht hcap hw
  obtain ⟨hq2, hs2, hht2, hcap2, htail2, hev2, hh2⟩ :=
    pushMutAll_spec N s hs xs r hht hcap (by omega)
  have hi1 : items N (pushSlice N r xs) = absQ N (pushSlice N r xs) :=
    items_eq_window s hs _ (by rw [hev1]; exact hev.trans hh1) hht1 htw1
  have hi2 : items N (pushMutAll N r xs) = absQ N (pushMutAll N r xs) :=
    items_eq_window s hs _ (by rw [hev2]; exact hev.trans hh2) hht2
      (by rw [htail2]; omega)
  constructor
  · rw [hi1, hi2, hq1, hq2]
  · rw [hs1, hs2]

/-- Witness for C8 at a concrete input: capacity 2, fresh ring, slice
`[1, 2, 3]` (an overflowing bulk push). -/
theorem c8_bulk_scalar_equiv_witness :
    items 2 (pushSlice 2 (fresh Nat) [1, 2, 3]) =
      items 2 (pushMutAll 2 (fresh Nat) [1, 2, 3]) ∧
    Multiset.ofList (pushSlice 2 (fresh Nat) [1, 2, 3]).sink =
      Multiset.ofList (pushMutAll 2 (fresh Nat) [1, 2, 3]).sink :=
  c8_bulk_scalar_equiv 2 1 (fresh Nat) [1, 2, 3] (by decide) (by decide)
    (by decide) (by decide) (by decide)

theorem window_pos_split (N : Nat) (buf : Nat → Option T) (h c : Nat)
    (hc : 0 < c) :
    window N buf h c = buf (h % N) :: window N buf (h + 1) (c - 1) := by
  obtain ⟨c1, rfl⟩ : ∃ c1, c = c1 + 1 := ⟨c - 1, by omega⟩
  rw [window_succ_head]
  simp

theorem window_pos_split_last (N : Nat) (buf : Nat → Option T) (h c : Nat)
    (hc : 0 < c) :
    window N buf h c =
      window N buf h (c - 1) ++ [buf ((h + (c - 1)) % N)] := by
  obtain ⟨c1, rfl⟩ : ∃ c1, c = c1 + 1 := ⟨c - 1, by omega⟩
  rw [window_succ]
  simp

/-- State reached by pushing the items of `xs` in order, with the shared
`push`, into a fresh ring: the consumer never ran (`head = 0`), the
producer has evicted the first `|xs| − N` items to the spout, and the
valid window holds the last `min(|xs|, N)` items. -/
def FillState (N : Nat) (xs : List T) (r : SpillRing T) : Prop :=
  r.head = 0 ∧ r.cachedHead = 0 ∧ r.cachedTail = 0 ∧ r.tail = xs.length ∧
  r.evictHead = xs.length - N ∧
  r.sink = (xs.take (xs.length - N)).map some ∧
  window N r.buffer (xs.length - N) (min xs.length N) =
    (xs.drop (xs.length - N)).map some

/-- One shared `push` preserves the fill-state shape. -/
theorem push_fill_step (N s : Nat) (hs : N = 2 ^ s) (xs : List T) (x : T)
    (r : SpillRing T) (hF : FillState N xs r)
    (hw : xs.length + 1 + N < W) :
    FillState N (xs ++ [x]) (push N r x) := by
  have hN0 : 0 < N := by
    rw [hs]
    exact Nat.pos_pow_of_pos s (by omega)
  obtain ⟨hh, hch, hct, htail, hev, hsink, hwin⟩ := hF
  have hm : wsub xs.length 0 = xs.length := by
    rw [wsub_eq (Nat.zero_le _) (by omega)]
    omega
  have hw1 : wadd xs.length 1 = xs.length + 1 := wadd_eq (by omega)
  rcases Nat.lt_or_ge xs.length N with hlt | hge
  · -- the ring is not yet full: plain write
    have hk0 : xs.length - N = 0 := by omega
    have hmin : min xs.length N = xs.length := by omega
    rw [hk0, hmin, List.drop_zero] at hwin
    have hpush : push N r x =
        { r with buffer := Function.update r.buffer (xs.length % N) (some x),
                 tail := xs.length + 1 } := by
      simp only [push, htail, hch, hm, land_eq_mod s hs, hw1]
      rw [if_neg (by omega), hch]
    rw [hpush]
    refine ⟨hh, hch, hct, by simp, ?_, ?_, ?_⟩
    · rw [hev]
      simp
      omega
    · rw [hsink, hk0]
      have h1 : (xs ++ [x]).length - N = 0 := by
        simp
        omega
      rw [h1]
      simp
    · have h1 : (xs ++ [x]).length - N = 0 := by
        simp
        omega
      have h2 : min (xs ++ [x]).length N = xs.length + 1 := by
        simp
        omega
      rw [h1, h2, List.drop_zero]
      simp only
      rw [window_succ,
        window_update_of_ge N r.buffer 0 xs.length xs.length (some x)
          (by omega) (by omega),
        Nat.zero_add, Function.update_same, hwin, List.map_append]
      rfl
  · -- the ring is full: evict the oldest window item, then write
    have hminN : min xs.length N = N := by omega
    rw [hminN] at hwin
    have hkN : xs.length - N < xs.length := by omega
    have hmodNk : (xs.length - N) % N = xs.length % N := by
      conv_rhs => rw [show xs.length = (xs.length - N) + N from by omega]
      rw [Nat.add_mod_right]
    have hsplitw : window N r.buffer (xs.length - N) N =
        r.buffer ((xs.length - N) % N) ::
        window N r.buffer (xs.length - N + 1) (N - 1) :=
      window_pos_split N r.buffer (xs.length - N) N hN0
    have hdropc : xs.drop (xs.length - N) =
        xs.get ⟨xs.length - N, hkN⟩ :: xs.drop (xs.length - N + 1) := by
      rw [List.drop_eq_getElem_cons hkN]
      rfl
    rw [hsplitw, hdropc, List.map_cons] at hwin
    have hbuf : r.buffer ((xs.length - N) % N) =
        some (xs.get ⟨xs.length - N, hkN⟩) := (List.cons.injEq _ _ _ _ ▸ hwin).1
    have hwin' : window N r.buffer (xs.length - N + 1) (N - 1) =
        (xs.drop (xs.length - N + 1)).map some :=
      (List.cons.injEq _ _ _ _ ▸ hwin).2
    have hpush : push N r x =
        { r with cachedHead := 0,
                 sink := r.sink ++ [r.buffer ((xs.length - N) % N)],
                 buffer := Function.update r.buffer (xs.length % N) (some x),
                 evictHead := xs.length - N + 1,
                 tail := xs.length + 1 } := by
      simp only [push, htail, hch, hh, hev, hm, land_eq_mod s hs, hw1]
      rw [if_pos (by omega), if_pos (by omega), if_neg (Nat.not_lt_zero _),
        wadd_eq (show (xs.length - N) + 1 < W from by omega), hmodNk,
        Function.update_idem]
    rw [hpush]
    refine ⟨hh, rfl, hct, by simp, ?_, ?_, ?_⟩
    · simp
      omega
    · rw [hsink, hbuf]
      have h1 : (xs ++ [x]).length - N = (xs.length - N) + 1 := by
        simp
        omega
      rw [h1, List.take_append_of_le_length (by omega), List.take_succ]
      have h2 : xs[xs.length - N]? = some (xs.get ⟨xs.length - N, hkN⟩) := by
        rw [List.getElem?_eq_getElem hkN]
        rfl
      rw [h2, List.map_append]
      rfl
    · have h1 : (xs ++ [x]).length - N = (xs.length - N) + 1 := by
        simp
        omega
      have h2 : min (xs ++ [x]).length N = N := by
        simp
        omega
      rw [h1, h2]
      simp only
      calc window N (Function.update r.buffer (xs.length % N) (some x))
            (xs.length - N + 1) N
          = window N (Function.update r.buffer (xs.length % N) (some x))
              (xs.length - N + 1) (N - 1) ++
            [Function.update r.buffer (xs.length % N) (some x)
              ((xs.length - N + 1 + (N - 1)) % N)] :=
            window_pos_split_last N _ _ N hN0
        _ = (xs.drop (xs.length - N + 1)).map some ++ [some x] := by
            rw [window_update_of_ge N r.buffer (xs.length - N + 1) (N - 1)
                xs.length (some x) (by omega) (by omega),
              show xs.length - N + 1 + (N - 1) = xs.length from by omega,
              Function.update_same, hwin']
        _ = ((xs ++ [x]).drop (xs.length - N + 1)).map some := by
            rw [List.drop_append_of_le_length (by omega), List.map_append]
            rfl

/-- Pushing any list into a fresh ring with the shared `push` produces the
fill state. -/
theorem fill_spec (N s : Nat) (hs : N = 2 ^ s) (xs : List T)
    (hw : xs.length + N < W) : FillState N xs (pushAll N (fresh T) xs) := by
  induction xs using List.reverseRecOn with
  | nil =>
      refine ⟨rfl, rfl, rfl, rfl, by simp [pushAll, fresh],
        by simp [pushAll, fresh], ?_⟩
      simp [window]
  | append_singleton ys y ih =>
      have hlen1 : (ys ++ [y]).length = ys.length + 1 := by simp
      have hys : ys.length + N < W := by omega
      have hstep := push_fill_step N s hs ys y (pushAll N (fresh T) ys)
        (ih hys) (by omega)
      unfold pushAll at hstep ⊢
      rw [List.foldl_append]
      exact hstep

/-- Shared `pop` on an empty ring whose cached tail is current: returns
`none` and leaves the state untouched. -/
theorem pop_empty (N : Nat) (r : SpillRing T) (he : r.evictHead ≤ r.head)
    (ht : r.head = r.tail) (hc : r.cachedTail = r.tail) (htw : r.tail < W) :
    pop N r = (none, r) := by
  have h1 : (if r.head < r.evictHead then r.evictHead else r.head) = r.head :=
    if_neg (by omega)
  have h2 : wsub r.cachedTail r.head = 0 := by
    rw [hc, ← ht, wsub_eq le_rfl (by omega)]
    omega
  have h3 : ({ r with cachedTail := r.tail } : SpillRing T) = r := by
    obtain ⟨a, b, c, d, e, f, g⟩ := r
    simp only at hc
    simp only [hc]
  simp only [pop, h1, h2]
  rw [if_pos (Or.inl trivial), if_pos ht, ite_self, h3]

/-- Repeated `pop` on an empty current-cache ring yields only `none`. -/
theorem popN_empty (N : Nat) (r : SpillRing T) (he : r.evictHead ≤ r.head)
    (ht : r.head = r.tail) (hc : r.cachedTail = r.tail) (htw : r.tail < W) :
    ∀ m, popN N r m = (List.replicate m none, r) := by
  intro m
  induction m with
  | zero => rfl
  | succ m ih =>
      have hstep : popN N r (m + 1) =
          ((pop N r).1 :: (popN N (pop N r).2 m).1,
           (popN N (pop N r).2 m).2) := rfl
      rw [hstep, pop_empty N r he ht hc htw, ih, List.replicate_succ]

/-- Shared `pop` on a nonempty ring with a current cached tail commits
directly without refreshing the cache. -/
theorem pop_cached_commit (N s : Nat) (hs : N = 2 ^ s) (r : SpillRing T)
    (h : Nat)
    (hrec : (if r.head < r.evictHead then r.evictHead else r.head) = h)
    (hlt : h < r.tail) (hcap : r.tail - h ≤ N) (htw : r.tail < W)
    (hct : r.cachedTail = r.tail) :
    pop N r = (some (r.buffer (h % N)),
      { r with buffer := Function.update r.buffer (h % N) none,
               head := h + 1 }) := by
  have h2 : wsub r.cachedTail h = r.tail - h := by
    rw [hct, wsub_eq (by omega) htw]
  simp only [pop, hrec, h2]
  rw [if_neg (by omega)]
  simp only [popCommit, land_eq_mod s hs, wadd_eq (show h + 1 < W from by omega)]

/-- Shared `pop` on a nonempty ring with a stale cached tail (`0`):
refreshes the cache, then commits. -/
theorem pop_refresh_commit (N s : Nat) (hs : N = 2 ^ s) (r : SpillRing T)
    (h : Nat)
    (hrec : (if r.head < r.evictHead then r.evictHead else r.head) = h)
    (hlt : h < r.tail) (htw : r.tail + N < W) (hct : r.cachedTail = 0) :
    pop N r = (some (r.buffer (h % N)),
      { r with cachedTail := r.tail,
               buffer := Function.update r.buffer (h % N) none,
               head := h + 1 }) := by
  have h2 : wsub r.cachedTail h = 0 ∨ N < wsub r.cachedTail h := by
    rw [hct]
    by_cases h0 : h = 0
    · left
      rw [h0, wsub_eq le_rfl (by omega)]
    · right
      rw [wsub_big (by omega) (by omega)]
      omega
  simp only [pop, hrec]
  rw [if_pos h2, if_neg (by omega)]
  simp only [popCommit, land_eq_mod s hs, wadd_eq (show h + 1 < W from by omega)]

/-- Draining a ring whose cached tail is current: `pop` returns the window
items in FIFO order and then only `none`. -/
theorem popN_drain (N s : Nat) (hs : N = 2 ^ s) :
    ∀ (ys : List T) (m : Nat) (r : SpillRing T) (h : Nat),
      r.head = h → r.evictHead ≤ h → r.tail = h + ys.length →
      r.cachedTail = r.tail → r.tail < W → ys.length ≤ N → ys.length ≤ m →
      window N r.buffer h ys.length = ys.map some →
      (popN N r m).1 =
        ys.map (fun y => some (some y)) ++
        List.replicate (m - ys.length) none := by
  have hN0 : 0 < N := by
    rw [hs]
    exact Nat.pos_pow_of_pos s (by omega)
  intro ys
  induction ys with
  | nil =>
      intro m r h hh he ht hc htw hlen hm hwin
      have ht0 : r.head = r.tail := by
        rw [hh, ht]
        simp
      rw [popN_empty N r (by omega) ht0 hc htw m]
      simp
  | cons y ys ih =>
      intro m r h hh he ht hc htw hlen hm hwin
      cases m with
      | zero =>
          exact absurd hm (by simp)
      | succ m =>
          rw [window_pos_split N r.buffer h (y :: ys).length (by simp)] at hwin
          simp only [List.length_cons, Nat.add_sub_cancel, List.map_cons] at hwin
          have hbuf : r.buffer (h % N) = some y :=
            (List.cons.injEq _ _ _ _ ▸ hwin).1
          have hwin2 : window N r.buffer (h + 1) ys.length = ys.map some :=
            (List.cons.injEq _ _ _ _ ▸ hwin).2
          have hpop := pop_cached_commit N s hs r h
            (by rw [hh]; exact if_neg (by omega))
            (by rw [ht]; simp) (by rw [ht]; simp at hlen ⊢; omega) htw hc
          have hstep : popN N r (m + 1) =
              ((pop N r).1 :: (popN N (pop N r).2 m).1,
               (popN N (pop N r).2 m).2) := rfl
          rw [hstep, hpop]
          simp only
          have hrec := ih m
            ({ r with buffer := Function.update r.buffer (h % N) none,
                      head := h + 1 }) (h + 1) rfl (by simp; omega)
            (by simp only; rw [ht]; simp; omega) (by simp only [hc])
            (by simp only; omega)
            (by simp only [List.length_cons] at hlen; omega)
            (by simp only [List.length_cons] at hm; omega)
            (by
              simp only
              rw [window_update_of_lt N r.buffer (h + 1) ys.length h none
                (by omega) (by simp only [List.length_cons] at hlen; omega)]
              exact hwin2)
          rw [hrec, hbuf]
          simp only [List.map_cons, List.length_cons]
          rw [show m + 1 - (ys.length + 1) = m - ys.length from by omega]
          rfl

/-! Claim C2. -/

/-- C2: fill-then-drain FIFO with eviction: pushing the items of `xs` one
at a time with the shared `push` into a fresh ring of power-of-two capacity
`N`, then popping `m ≥ min(|xs|, N)` times with the shared `pop`, yields
the last `min(|xs|, N)` items of `xs` in push order followed by only
`None`; for `|xs| ≤ N` the whole input sequence is returned. -/
theorem c2_fill_then_drain (N s : Nat) (xs : List T) (m : Nat)
    (hs : N = 2 ^ s) (hw : xs.length + N < W) (hm : min xs.length N ≤ m) :
    (popN N (pushAll N (fresh T) xs) m).1 =
      (xs.drop (xs.length - N)).map (fun x => some (some x)) ++
      List.replicate (m - min xs.length N) none := by
  have hN0 : 0 < N := by
    rw [hs]
    exact Nat.pos_pow_of_pos s (by omega)
  obtain ⟨hh, hch, hct, htail, hev, hsink, hwin⟩ := fill_spec N s hs xs hw
  by_cases hk : xs.length = 0
  · have hxs : xs = [] := List.length_eq_zero.mp hk
    subst hxs
    have he1 : (pushAll N (fresh T) []).evictHead ≤
        (pushAll N (fresh T) []).head := by
      rw [hev, hh]
      simp
    have ht1 : (pushAll N (fresh T) []).head =
        (pushAll N (fresh T) []).tail := by
      rw [hh, htail]
      rfl
    have hc1 : (pushAll N (fresh T) []).cachedTail =
        (pushAll N (fresh T) []).tail := by
      rw [hct, htail]
      rfl
    have htw1 : (pushAll N (fresh T) []).tail < W := by
      rw [htail]
      simp only [List.length_nil]
      omega
    rw [popN_empty N _ he1 ht1 hc1 htw1 m]
    simp
  · cases m with
    | zero => exact absurd hm (by omega)
    | succ m =>
        have hkN : xs.length - N < xs.length := by omega
        have hrec : (if (pushAll N (fresh T) xs).head <
              (pushAll N (fresh T) xs).evictHead
            then (pushAll N (fresh T) xs).evictHead
            else (pushAll N (fresh T) xs).head) = xs.length - N := by
          rw [hh, hev]
          split <;> omega
        rw [window_pos_split N _ _ _
          (show 0 < min xs.length N from by omega)] at hwin
        have hdropc : xs.drop (xs.length - N) =
            xs.get ⟨xs.length - N, hkN⟩ :: xs.drop (xs.length - N + 1) := by
          rw [List.drop_eq_getElem_cons hkN]
          rfl
        rw [hdropc, List.map_cons] at hwin
        have hbuf : (pushAll N (fresh T) xs).buffer ((xs.length - N) % N) =
            some (xs.get ⟨xs.length - N, hkN⟩) :=
          (List.cons.injEq _ _ _ _ ▸ hwin).1
        have hwin2 : window N (pushAll N (fresh T) xs).buffer
            (xs.length - N + 1) (min xs.length N - 1) =
            (xs.drop (xs.length - N + 1)).map some :=
          (List.cons.injEq _ _ _ _ ▸ hwin).2
        have hldrop : (xs.drop (xs.length - N + 1)).length =
            min xs.length N - 1 := by
          rw [List.length_drop]
          omega
        have hpop := pop_refresh_commit N s hs (pushAll N (fresh T) xs)
          (xs.length - N) hrec (by rw [htail]; omega)
          (by rw [htail]; omega) hct
        have hstep : popN N (pushAll N (fresh T) xs) (m + 1) =
            ((pop N (pushAll N (fresh T) xs)).1 ::
              (popN N (pop N (pushAll N (fresh T) xs)).2 m).1,
             (popN N (pop N (pushAll N (fresh T) xs)).2 m).2) := rfl
        rw [hstep, hpop]
        simp only
        have hrec2 := popN_drain N s hs (xs.drop (xs.length - N + 1)) m
          ({ pushAll N (fresh T) xs with
              cachedTail := (pushAll N (fresh T) xs).tail,
              buffer := Function.update (pushAll N (fresh T) xs).buffer
                ((xs.length - N) % N) none,
              head := xs.length - N + 1 })
          (xs.length - N + 1) rfl
          (show (pushAll N (fresh T) xs).evictHead ≤ xs.length - N + 1 from by
            rw [hev]
            omega)
          (show (pushAll N (fresh T) xs).tail =
              (xs.length - N + 1) + (xs.drop (xs.length - N + 1)).length from by
            rw [htail, List.length_drop]
            omega)
          rfl
          (show (pushAll N (fresh T) xs).tail < W from by rw [htail]; omega)
          (by rw [hldrop]; omega)
          (by rw [hldrop]; omega)
          (by
            show window N (Function.update (pushAll N (fresh T) xs).buffer
              ((xs.length - N) % N) none) (xs.length - N + 1)
              (xs.drop (xs.length - N + 1)).length =
              (xs.drop (xs.length - N + 1)).map some
            rw [hldrop,
              window_update_of_lt N _ (xs.length - N + 1) (min xs.length N - 1)
                (xs.length - N) none (by omega) (by omega)]
            exact hwin2)
        rw [hbuf, hrec2, hdropc, List.map_cons, hldrop]
        rw [show m + 1 - min xs.length N = m - (min xs.length N - 1) from by
          omega]
        rfl

/-- Witness for C2: the spec's concrete scenario 1, `N = 4`, push
`[1,2,3,4,5,6]`, pop six times. -/
theorem c2_fill_then_drain_witness :
    (popN 4 (pushAll 4 (fresh Nat) [1, 2, 3, 4, 5, 6]) 6).1 =
      [some (some 3), some (some 4), some (some 5), some (some 6),
       none, none] := by
  have h := c2_fill_then_drain 4 2 [1, 2, 3, 4, 5, 6] 6 (by decide)
    (by decide) (by decide)
  exact h.trans (by decide)

end SpillRingModel
